import Mathlib

/-!
Verification of the COFB-Midori64 sources (src/src/midori.c, src/src/cofb.c,
src/lib/cofb.h, src/lib/midori.h -- the unnamed header part_002).

Machine integers are modelled as Nat, with an explicit reduction modulo a
power of two at every point where the C code truncates (assignment to a
narrower type, or a shift that can overflow the 64-bit type).  The C driver
reads its blocks from stdin; the loops are modelled over an already tokenized
stream of items (parsed 64-bit block, boundary flag), where the boundary flag
stands for the result of the isblank / newline / hayNL test of each read.
-/

set_option maxHeartbeats 1000000

namespace COFBMidori

/-- Constant nxn from midori.h: number of nibbles in a 64-bit block. -/
def nxn : Nat := 0x10

/-- Constant r from midori.h: the round-count bound of the key schedule. -/
def r : Nat := 0x10

/-- S-box packed as a 64-bit constant, Sb0 from midori.h. -/
def Sb0 : Nat := 0xcad3ebf789150246

/-- Forward cell permutation table, shuffleP from midori.h. -/
def shuffleP : Nat := 0x0a5fe4b193c67d28

/-- Inverse cell permutation table, shufflePInv from midori.h. -/
def shufflePInv : Nat := 0x07e952bcf816ad43

/-- Field polynomial literal poliN from midori.h.  The literal 0x10000001b
needs 33 bits, so in C it has 64-bit type and its bit 32 is cut whenever a
result is stored back into the 32-bit type tn2. -/
def poliN : Nat := 0x10000001b

/-- Top-bit mask maxPn from midori.h. -/
def maxPn : Nat := 0x80000000

/-- Round-constant table beta from midori.c (named betaC here because beta is
also the conventional name of the COFB base mask). -/
def betaC (i : Nat) : Nat :=
  match i with
  | 0 => 0x15b3 | 1 => 0x78c0 | 2 => 0xa435 | 3 => 0x6213
  | 4 => 0x104f | 5 => 0xd170 | 6 => 0x0266 | 7 => 0x0bcc
  | 8 => 0x9481 | 9 => 0x40b8 | 10 => 0x7197 | 11 => 0x228e
  | 12 => 0x5130 | 13 => 0xf8ca | 14 => 0xdf90 | 15 => 0x7c81
  | _ => 0

/-- obtNibble from midori.c: extract the 4-bit value at position pos (the C
code shifts right twice by des = (nxn-pos-1) shifted left once). -/
def obtNibble (S : Nat) (pos : Nat) : Nat :=
  let des := (nxn - pos - 1) <<< 1
  ((S >>> des) >>> des) &&& 0xf

/-- asgNibble from midori.c: replace the nibble at position pos by val.  The
shifted value tmp is computed in 64-bit unsigned arithmetic, hence the
reduction modulo 2 to the 64. -/
def asgNibble (S : Nat) (pos : Nat) (val : Nat) : Nat :=
  let des := (nxn - pos - 1) <<< 1
  let tmp := ((val <<< des) <<< des) % 2 ^ 64
  let msk := ((0xf : Nat) <<< des) <<< des
  let mskS := msk &&& S
  (tmp ^^^ mskS) ^^^ S

/-- The write loops of midori.c assign positions 0, 1, ..., k-1 in order into
an accumulator block.  The C target arrays start uninitialized; every nibble
position is overwritten, which is reflected here by the lemmas below holding
for an arbitrary start value acc (the definitions use acc = 0). -/
def asgLoop (f : Nat → Nat) (acc : Nat) : Nat → Nat
  | 0 => acc
  | i + 1 => asgNibble (asgLoop f acc i) i (f i)

/-- subCell from midori.c: every nibble is replaced by its Sb0 lookup. -/
def subCell (S : Nat) : Nat :=
  asgLoop (fun i => obtNibble Sb0 (obtNibble S i)) 0 nxn

/-- shuffleCell from midori.c: position i receives the nibble at the source
index stored in the permutation table; inv = 0 selects the forward table. -/
def shuffleCell (S : Nat) (inv : Nat) : Nat :=
  asgLoop (fun i => obtNibble S (obtNibble (if inv = 0 then shuffleP else shufflePInv) i)) 0 nxn

/-- Column parity accumulation of mixColumn in midori.c (the while loop adds
the four nibbles of the column starting at i, indices i+3 down to i). -/
def colXor (S : Nat) (i : Nat) : Nat :=
  (((0 ^^^ obtNibble S (i + 3)) ^^^ obtNibble S (i + 2)) ^^^ obtNibble S (i + 1)) ^^^ obtNibble S i

/-- mixColumn from midori.c: the outer loop visits columns i = 0, 4, 8, 12 and
the inner loop writes positions i+j in order, so positions 0..15 are written
in order, each receiving its own column parity xored with itself. -/
def mixColumn (S : Nat) : Nat :=
  asgLoop (fun p => colXor S (4 * (p / 4)) ^^^ obtNibble S p) 0 nxn

/-- Round key of round i built by keyGen in midori.c: the inner loop assigns,
at each nibble position j, the nibble of Ki[i and 1] xored with the single bit
(beta[i] shifted right by nxn-j-1) and 1. -/
def RKgen (K0 K1 : Nat) (i : Nat) : Nat :=
  asgLoop (fun j => obtNibble (if i &&& 1 = 0 then K0 else K1) j ^^^ ((betaC i >>> (nxn - j - 1)) &&& 0x1)) 0 nxn

/-- Whitening key computed by keyGen in midori.c. -/
def WKgen (K0 K1 : Nat) : Nat := K0 ^^^ K1

/-- One main round of midori (midori.c, the body of the for loop): subCell,
then the two ternaries on inv, then keyAdd (keyAdd is the xor macro). -/
def midoriRound (K0 K1 inv S i : Nat) : Nat :=
  let S1 := subCell S
  let S2 := if inv = 0 then shuffleCell S1 0 else mixColumn S1
  let S3 := if inv = 0 then mixColumn S2 else shuffleCell S2 0xff
  S3 ^^^ RKgen K0 K1 i

/-- Rounds 0 .. k-1 of midori applied in order. -/
def midoriRounds (K0 K1 inv S : Nat) : Nat → Nat
  | 0 => S
  | i + 1 => midoriRound K0 K1 inv (midoriRounds K0 K1 inv S i) i

/-- midori from midori.c: initial whitening, r-1 = 15 main rounds, a final
subCell, and final whitening with the same key WK. -/
def midori (S : Nat) (K0 K1 : Nat) (inv : Nat) : Nat :=
  let WK := WKgen K0 K1
  subCell (midoriRounds K0 K1 inv (S ^^^ WK) (r - 1)) ^^^ WK

/-- gsuma from cofb.c: both operands are xored with poliN (the terms cancel),
computed in 64-bit arithmetic and truncated to 32 bits on return. -/
def gsuma (a b : Nat) : Nat := ((a ^^^ poliN) ^^^ (b ^^^ poliN)) % 2 ^ 32

/-- gdoble from cofb.c: the shift a shl 1 happens in 32-bit unsigned
arithmetic (wrapping), the xor with the 33-bit poliN in 64-bit arithmetic,
and the assignment back to tn2 truncates to 32 bits. -/
def gdoble (a : Nat) : Nat :=
  if a &&& maxPn ≠ 0 then (((a <<< 1) % 2 ^ 32) ^^^ poliN) % 2 ^ 32 else (a <<< 1) % 2 ^ 32

/-- gtriple from cofb.c. -/
def gtriple (a : Nat) : Nat := gsuma a (gdoble a)

/-- The module-scoped variables mx2, mx2x3, mx2x3x3 declared in lib/cofb.h. -/
structure FieldState where
  mx2 : Nat
  mx2x3 : Nat
  mx2x3x3 : Nat

/-- goper from cofb.c: the switch on finB.  The alf argument is accepted and
never read, exactly as in the C body; the default branch returns the mask
initial value 0 and leaves the module state unchanged. -/
def goper (finB : Nat) (alf : Nat) (st : FieldState) : Nat × FieldState :=
  if finB = 1 then
    let m := gdoble st.mx2
    (m, ⟨m, st.mx2x3, st.mx2x3x3⟩)
  else if finB = 2 then
    let m := gtriple st.mx2
    (m, ⟨st.mx2, m, st.mx2x3x3⟩)
  else if finB = 3 then
    let m2 := gdoble st.mx2
    let m := gtriple m2
    (m, ⟨m2, m, st.mx2x3x3⟩)
  else if finB = 4 then
    let m := gtriple (gtriple st.mx2)
    (m, ⟨st.mx2, st.mx2x3, m⟩)
  else (0, st)

/-- mask from cofb.c: forwards finB and beta to goper; the block argument B
is accepted and never used by the C body. -/
def mask (beta : Nat) (B : Nat) (finB : Nat) (st : FieldState) : Nat × FieldState :=
  goper finB beta st

/-- maskGen from cofb.c. -/
def maskGen (Y0 : Nat) : Nat := (Y0 >>> 0x10) &&& 0xffffffff

/-- mulGY from cofb.c: shift Y left by 16 inside 64 bits, then or in the
folded 16-bit term (Y shifted right by 16 then by 32, xored with the low 16
bits of Y). -/
def mulGY (Y : Nat) : Nat :=
  let GY := (Y <<< 16) &&& 0xffffffffffffffff
  GY ||| (((Y >>> 16) >>> 32) ^^^ (Y &&& 0xffff))

/-- Loop state of the COFB and dCOFB drivers: the counter exp, the chaining
block Y, and the module-scoped field state. -/
structure EncState where
  exp : Nat
  Y : Nat
  fs : FieldState

/-- The switch at the end of each driver loop iteration in cofb.c: exp is
incremented exactly when its value is 0, 2 or 4. -/
def switchAdv (e : Nat) : Nat := if e = 0 ∨ e = 2 ∨ e = 4 then e + 1 else e

/-- One iteration of the COFB encrypt loop on a tokenized input item: B is
the parsed 64-bit block and brk tells whether the boundary test of this read
(isblank, newline, or hayNL) succeeded, in which case exp is incremented
before the block is processed.  Returns the new state and the emitted
ciphertext block, if any: a block is printed exactly when exp exceeds 2 and
its value is Y xor B with the Y from before the midori update. -/
def cofbStep (K0 K1 beta : Nat) (st : EncState) (B : Nat) (brk : Bool) : EncState × Option Nat :=
  let exp1 := if brk then st.exp + 1 else st.exp
  let mf := mask beta B exp1 st.fs
  let GY := mulGY st.Y
  let BGY := B ^^^ GY
  let X := (mf.1 <<< 32) ^^^ BGY
  let out := if exp1 > 2 then some (st.Y ^^^ B) else none
  let Ynew := midori X K0 K1 0
  (⟨switchAdv exp1, Ynew, mf.2⟩, out)

/-- The while loop of COFB: runs while exp is below 4 and input remains. -/
def cofbLoop (K0 K1 beta : Nat) : EncState → List (Nat × Bool) → List Nat × EncState
  | st, [] => ([], st)
  | st, (B, brk) :: rest =>
    if st.exp < 4 then
      let so := cofbStep K0 K1 beta st B brk
      let res := cofbLoop K0 K1 beta so.1 rest
      (so.2.toList ++ res.1, res.2)
    else ([], st)

/-- The initialization shared verbatim by COFB and dCOFB in cofb.c: Y from
the nonce through midori, beta from Y through maskGen, the module variable
mx2 overwritten with beta, and the counter exp starting at 1.  The module
variables mx2x3 and mx2x3x3 keep whatever values they held at call entry. -/
def cofbInit (K0 K1 N : Nat) (st0 : FieldState) : Nat × EncState :=
  let Y := midori N K0 K1 0
  let beta := maskGen Y
  (beta, ⟨1, Y, ⟨beta, st0.mx2x3, st0.mx2x3x3⟩⟩)

/-- Result of one driver call: the emitted blocks in order, the returned tag,
and the module field state left behind at exit. -/
structure CofbResult where
  outs : List Nat
  tag : Nat
  fs : FieldState

/-- COFB from cofb.c over a tokenized input stream: initialization, the
processing loop, and the final Y returned as the tag T. -/
def COFB (K0 K1 N : Nat) (inp : List (Nat × Bool)) (st0 : FieldState) : CofbResult :=
  let ib := cofbInit K0 K1 N st0
  let res := cofbLoop K0 K1 ib.1 ib.2 inp
  ⟨res.1, res.2.Y, res.2.fs⟩

/-- One iteration of the dCOFB decrypt loop from cofb.c: identical to the
encrypt iteration except that when exp exceeds 2 the feedback word BGY is
replaced by Y xor BGY before building X, and the emitted block (the recovered
plaintext) is Y xor B. -/
def dcofbStep (K0 K1 beta : Nat) (st : EncState) (B : Nat) (brk : Bool) : EncState × Option Nat :=
  let exp1 := if brk then st.exp + 1 else st.exp
  let mf := mask beta B exp1 st.fs
  let GY := mulGY st.Y
  let BGY := B ^^^ GY
  let BGY2 := if exp1 > 2 then st.Y ^^^ BGY else BGY
  let out := if exp1 > 2 then some (st.Y ^^^ B) else none
  let X := (mf.1 <<< 32) ^^^ BGY2
  let Ynew := midori X K0 K1 0
  (⟨switchAdv exp1, Ynew, mf.2⟩, out)

/-- The while loop of dCOFB. -/
def dcofbLoop (K0 K1 beta : Nat) : EncState → List (Nat × Bool) → List Nat × EncState
  | st, [] => ([], st)
  | st, (B, brk) :: rest =>
    if st.exp < 4 then
      let so := dcofbStep K0 K1 beta st B brk
      let res := dcofbLoop K0 K1 beta so.1 rest
      (so.2.toList ++ res.1, res.2)
    else ([], st)

/-- dCOFB from cofb.c; the expected tag argument T is accepted and never used
by the C body, which always runs the loop and returns the recomputed tag. -/
def dCOFB (K0 K1 N T : Nat) (inp : List (Nat × Bool)) (st0 : FieldState) : CofbResult :=
  let ib := cofbInit K0 K1 N st0
  let res := dcofbLoop K0 K1 ib.1 ib.2 inp
  ⟨res.1, res.2.Y, res.2.fs⟩

/-- The stream a decryptor receives for a given encrypt run: every block that
the encrypt loop enciphers (counter value above 2) is replaced by the
ciphertext block that COFB emits for it, all other items pass through
unchanged, with the same boundary flags. -/
def encToDecItems (K0 K1 beta : Nat) : EncState → List (Nat × Bool) → List (Nat × Bool)
  | _, [] => []
  | st, (B, brk) :: rest =>
    if st.exp < 4 then
      let exp1 := if brk then st.exp + 1 else st.exp
      let B2 := if exp1 > 2 then st.Y ^^^ B else B
      (B2, brk) :: encToDecItems K0 K1 beta (cofbStep K0 K1 beta st B brk).1 rest
    else (B, brk) :: rest

/-- Top-level ciphertext stream of an encrypt run, starting from the shared
initialization. -/
def encToDecInput (K0 K1 N : Nat) (st0 : FieldState) (inp : List (Nat × Bool)) : List (Nat × Bool) :=
  let ib := cofbInit K0 K1 N st0
  encToDecItems K0 K1 ib.1 ib.2 inp

/-- The payload blocks of an input stream: the blocks the driver processes
with counter value above 2, which are exactly the positions at which a block
is emitted.  The counter dynamics depend only on the boundary flags. -/
def payloadBlocks (e : Nat) : List (Nat × Bool) → List Nat
  | [] => []
  | (B, brk) :: rest =>
    if e < 4 then
      let e1 := if brk then e + 1 else e
      (if e1 > 2 then [B] else []) ++ payloadBlocks (switchAdv e1) rest
    else []

/-- Spec-side round key, following the words of spec section 4.4: set nibble
j of RK i to the nibble of K0 for even i, of K1 for odd i, xored in its low
bit with bit (15 - j) of the round constant beta i. -/
def RKspec (K0 K1 : Nat) (i : Nat) : Nat :=
  asgLoop (fun j => obtNibble (if i % 2 = 0 then K0 else K1) j ^^^ ((betaC i >>> (15 - j)) &&& 1)) 0 16

/-- Spec-side cipher rounds, following the words of spec section 4.5: each
round applies SubCell, forward ShuffleCell, MixColumn, then xors RK i. -/
def midoriSpecRounds (K0 K1 S : Nat) : Nat → Nat
  | 0 => S
  | i + 1 => mixColumn (shuffleCell (subCell (midoriSpecRounds K0 K1 S i)) 0) ^^^ RKspec K0 K1 i

/-- Spec-side cipher, following the words of spec section 4.5: whitening with
WK = K0 xor K1, 15 rounds, a final SubCell, and a final whitening. -/
def midoriSpec (S K0 K1 : Nat) : Nat :=
  subCell (midoriSpecRounds K0 K1 (S ^^^ (K0 ^^^ K1)) 15) ^^^ (K0 ^^^ K1)

/-! Bit-level characterization of the nibble primitives. -/

theorem obtNibble_eq (S p : Nat) : obtNibble S p = (S >>> (4 * (15 - p))) &&& 0xf := by
  simp only [obtNibble]
  rw [← Nat.shiftRight_add]
  have h : (nxn - p - 1) <<< 1 + (nxn - p - 1) <<< 1 = 4 * (15 - p) := by
    simp only [nxn, Nat.shiftLeft_eq]
    omega
  rw [h]

theorem testBit_obtNibble (S p i : Nat) :
    (obtNibble S p).testBit i = (decide (i < 4) && S.testBit (4 * (15 - p) + i)) := by
  have h15 : (0xf : Nat) = 2 ^ 4 - 1 := by norm_num
  rw [obtNibble_eq, h15]
  simp only [Nat.testBit_and, Nat.testBit_two_pow_sub_one, Nat.testBit_shiftRight]
  rw [Bool.and_comm]

theorem obtNibble_lt (S p : Nat) : obtNibble S p < 16 := by
  rw [obtNibble_eq]
  have h : (S >>> (4 * (15 - p))) &&& 0xf ≤ 0xf := Nat.and_le_right
  omega

theorem asgNibble_eq (S p v : Nat) (hp : p < 16) (hv : v < 16) :
    asgNibble S p v =
      ((v <<< (4 * (15 - p))) ^^^ (((0xf : Nat) <<< (4 * (15 - p))) &&& S)) ^^^ S := by
  simp only [asgNibble]
  rw [← Nat.shiftLeft_add, ← Nat.shiftLeft_add]
  have hd : (nxn - p - 1) <<< 1 + (nxn - p - 1) <<< 1 = 4 * (15 - p) := by
    simp only [nxn, Nat.shiftLeft_eq]
    omega
  rw [hd]
  have hlt : v <<< (4 * (15 - p)) < 2 ^ 64 := by
    rw [Nat.shiftLeft_eq]
    have h1 : (2 : Nat) ^ (4 * (15 - p)) ≤ 2 ^ 60 := Nat.pow_le_pow_right (by norm_num) (by omega)
    calc v * 2 ^ (4 * (15 - p)) ≤ 15 * 2 ^ 60 := Nat.mul_le_mul (by omega) h1
    _ < 2 ^ 64 := by norm_num
  rw [Nat.mod_eq_of_lt hlt]

theorem testBit_asgNibble (S p v k : Nat) (hp : p < 16) (hv : v < 16) :
    (asgNibble S p v).testBit k =
      if 4 * (15 - p) ≤ k ∧ k < 4 * (15 - p) + 4 then v.testBit (k - 4 * (15 - p))
      else S.testBit k := by
  rw [asgNibble_eq S p v hp hv]
  have hbit : ∀ j, Nat.testBit 0xf j = decide (j < 4) := by
    intro j
    have h15 : (0xf : Nat) = 2 ^ 4 - 1 := by norm_num
    rw [h15, Nat.testBit_two_pow_sub_one]
  simp only [Nat.testBit_xor, Nat.testBit_and, Nat.testBit_shiftLeft, hbit, ge_iff_le]
  by_cases h1 : 4 * (15 - p) ≤ k
  · by_cases h2 : k < 4 * (15 - p) + 4
    · have h3 : k - 4 * (15 - p) < 4 := by omega
      rw [if_pos (And.intro h1 h2)]
      have e1 : decide (4 * (15 - p) ≤ k) = true := by simp [h1]
      have e3 : decide (k - 4 * (15 - p) < 4) = true := by simp [h3]
      rw [e1, e3]
      cases hb : v.testBit (k - 4 * (15 - p)) <;> cases hs : S.testBit k <;> rfl
    · have h3 : ¬(k - 4 * (15 - p) < 4) := by omega
      have h16 : (16 : Nat) ≤ 2 ^ (k - 4 * (15 - p)) := by
        have hb : (2 : Nat) ^ 4 ≤ 2 ^ (k - 4 * (15 - p)) :=
          Nat.pow_le_pow_right (by norm_num) (by omega)
        simpa using hb
      have h4 : v.testBit (k - 4 * (15 - p)) = false :=
        Nat.testBit_lt_two_pow (Nat.lt_of_lt_of_le hv h16)
      rw [if_neg (by omega)]
      simp [h1, h3, h4]
  · rw [if_neg (by omega)]
    simp [h1]

theorem obtNibble_asgNibble_self (S p v : Nat) (hp : p < 16) (hv : v < 16) :
    obtNibble (asgNibble S p v) p = v := by
  apply Nat.eq_of_testBit_eq
  intro i
  rw [testBit_obtNibble, testBit_asgNibble S p v _ hp hv]
  by_cases hi : i < 4
  · rw [if_pos (And.intro (Nat.le_add_right _ _) (by omega))]
    simp [hi, Nat.add_sub_cancel_left]
  · have h16 : (16 : Nat) ≤ 2 ^ i := by
      have hb : (2 : Nat) ^ 4 ≤ 2 ^ i := Nat.pow_le_pow_right (by norm_num) (by omega)
      simpa using hb
    have h4 : v.testBit i = false := Nat.testBit_lt_two_pow (Nat.lt_of_lt_of_le hv h16)
    simp [hi, h4]

theorem asgNibble_obtNibble_self (S p : Nat) (hp : p < 16) :
    asgNibble S p (obtNibble S p) = S := by
  apply Nat.eq_of_testBit_eq
  intro k
  rw [testBit_asgNibble S p _ k hp (obtNibble_lt S p)]
  by_cases h : 4 * (15 - p) ≤ k ∧ k < 4 * (15 - p) + 4
  · rw [if_pos h, testBit_obtNibble]
    have h1 : k - 4 * (15 - p) < 4 := by omega
    have h2 : 4 * (15 - p) + (k - 4 * (15 - p)) = k := by omega
    simp [h1, h2]
  · rw [if_neg h]

theorem obtNibble_asgNibble_ne (S p v q : Nat) (hp : p < 16) (hq : q < 16) (hne : q ≠ p)
    (hv : v < 16) : obtNibble (asgNibble S p v) q = obtNibble S q := by
  apply Nat.eq_of_testBit_eq
  intro i
  rw [testBit_obtNibble, testBit_obtNibble, testBit_asgNibble S p v _ hp hv]
  by_cases hi : i < 4
  · have hdisj : ¬(4 * (15 - p) ≤ 4 * (15 - q) + i ∧ 4 * (15 - q) + i < 4 * (15 - p) + 4) := by
      omega
    rw [if_neg hdisj]
  · simp [hi]

theorem obtNibble_asgLoop (f : Nat → Nat) (acc k j : Nat) (hk : k ≤ 16) (hj : j < k)
    (hf : ∀ m, m < k → f m < 16) : obtNibble (asgLoop f acc k) j = f j := by
  induction k with
  | zero => omega
  | succ i ih =>
    show obtNibble (asgNibble (asgLoop f acc i) i (f i)) j = f j
    rcases Nat.lt_or_ge j i with hji | hji
    · rw [obtNibble_asgNibble_ne _ i (f i) j (by omega) (by omega) (by omega) (hf i (by omega))]
      exact ih (by omega) hji (fun m hm => hf m (by omega))
    · have hj2 : j = i := by omega
      subst hj2
      exact obtNibble_asgNibble_self _ j (f j) (by omega) (hf j (by omega))

theorem asgLoop_congr (f g : Nat → Nat) (acc k : Nat) (h : ∀ m, m < k → f m = g m) :
    asgLoop f acc k = asgLoop g acc k := by
  induction k with
  | zero => rfl
  | succ i ih =>
    show asgNibble (asgLoop f acc i) i (f i) = asgNibble (asgLoop g acc i) i (g i)
    rw [ih (fun m hm => h m (by omega)), h i (by omega)]

/-- Claim C8: nibble round-trip.  For every 64-bit block S, position p below
16 and 4-bit value v: reading position p after writing v there yields v;
writing back the value read at p reproduces S; and every other position q is
unchanged by the write. -/
theorem nibble_roundtrip (S p v q : Nat) (hS : S < 2 ^ 64) (hp : p < 16) (hv : v < 16)
    (hq : q < 16) (hne : q ≠ p) :
    obtNibble (asgNibble S p v) p = v ∧
    asgNibble S p (obtNibble S p) = S ∧
    obtNibble (asgNibble S p v) q = obtNibble S q :=
  ⟨obtNibble_asgNibble_self S p v hp hv, asgNibble_obtNibble_self S p hp,
   obtNibble_asgNibble_ne S p v q hp hq hne hv⟩

/-- Witness for nibble_roundtrip at S = 5, p = 0, v = 7, q = 1. -/
theorem nibble_roundtrip_witness :
    obtNibble (asgNibble 5 0 7) 0 = 7 ∧ asgNibble 5 0 (obtNibble 5 0) = 5 ∧
    obtNibble (asgNibble 5 0 7) 1 = obtNibble 5 1 :=
  nibble_roundtrip 5 0 7 1 (by norm_num) (by norm_num) (by norm_num) (by norm_num) (by norm_num)

/-! Field kernel and feedback function. -/

theorem and_maxPn (a : Nat) : a &&& maxPn = if a.testBit 31 then maxPn else 0 := by
  have hm : maxPn = 2 ^ 31 := by norm_num [maxPn]
  rw [hm]
  apply Nat.eq_of_testBit_eq
  intro i
  rw [Nat.testBit_and, Nat.testBit_two_pow]
  by_cases hb : a.testBit 31 = true
  · rw [if_pos hb, Nat.testBit_two_pow]
    by_cases h31 : 31 = i
    · subst h31
      simp [hb]
    · simp [h31]
  · rw [if_neg hb, Nat.zero_testBit]
    have hb2 : a.testBit 31 = false := by
      cases hx : a.testBit 31
      · rfl
      · exact absurd hx hb
    by_cases h31 : 31 = i
    · subst h31
      simp [hb2]
    · simp [h31]

theorem xor_poliN_mod (x : Nat) : ((x % 2 ^ 32) ^^^ poliN) % 2 ^ 32 = (x ^^^ 0x1b) % 2 ^ 32 := by
  apply Nat.eq_of_testBit_eq
  intro i
  simp only [Nat.testBit_mod_two_pow, Nat.testBit_xor]
  by_cases hi : i < 32
  · have h1 : poliN % 2 ^ 32 = 0x1b := by norm_num [poliN]
    have h2 := Nat.testBit_mod_two_pow poliN 32 i
    rw [h1] at h2
    simp only [hi, decide_True, Bool.true_and] at h2
    simp [hi, h2]
  · simp [hi]

/-- Claim C7: gdoble returns the wrapped left shift xored with 0x1b exactly
when bit 31 of the argument is set, all arithmetic reduced modulo 2 to the
32 on return (the 33rd bit of the poliN literal is cut by the truncation). -/
theorem gdoble_formula (a : Nat) :
    gdoble a = if a.testBit 31 then ((a <<< 1) ^^^ 0x1b) % 2 ^ 32 else (a <<< 1) % 2 ^ 32 := by
  unfold gdoble
  have hc : (a &&& maxPn ≠ 0) ↔ a.testBit 31 = true := by
    rw [and_maxPn]
    by_cases hb : a.testBit 31 = true <;> simp [hb, maxPn]
  by_cases hb : a.testBit 31 = true
  · rw [if_pos (hc.mpr hb), if_pos hb, xor_poliN_mod]
  · rw [if_neg (fun hx => hb (hc.mp hx)), if_neg hb]

/-- Claim C9: mask ignores its block argument: for any two blocks B and B2 it
returns the same mask and performs the same field-state update, and it equals
goper applied to the counter and beta. -/
theorem mask_ignores_block (beta B B2 finB : Nat) (st : FieldState) :
    mask beta B finB st = mask beta B2 finB st ∧ mask beta B finB st = goper finB beta st :=
  ⟨rfl, rfl⟩

theorem shiftRight48 (Y : Nat) : (Y >>> 16) >>> 32 = Y >>> 48 := by
  rw [← Nat.shiftRight_add]

theorem and_ffff (Y : Nat) : Y &&& 0xffff = Y % 2 ^ 16 := by
  have h : (0xffff : Nat) = 2 ^ 16 - 1 := by norm_num
  rw [h, Nat.and_pow_two_sub_one_eq_mod]

theorem mulGY_fold_lt (Y : Nat) (hY : Y < 2 ^ 64) :
    (Y >>> 48) ^^^ (Y &&& 0xffff) < 2 ^ 16 := by
  apply Nat.xor_lt_two_pow
  · rw [Nat.shiftRight_eq_div_pow]
    rw [Nat.div_lt_iff_lt_mul (by positivity)]
    calc Y < 2 ^ 64 := hY
    _ = 2 ^ 16 * 2 ^ 48 := by norm_num
  · rw [and_ffff]
    exact Nat.mod_lt _ (by positivity)

theorem shl16_mod (Y : Nat) : (Y <<< 16) % 2 ^ 64 = (Y % 2 ^ 48) * 2 ^ 16 := by
  rw [Nat.shiftLeft_eq]
  have h2 : (2 : Nat) ^ 64 = 2 ^ 48 * 2 ^ 16 := by norm_num
  rw [h2, Nat.mul_mod_mul_right]

theorem mulGY_eq (Y : Nat) (hY : Y < 2 ^ 64) :
    mulGY Y = (Y % 2 ^ 48) * 2 ^ 16 + ((Y >>> 48) ^^^ (Y &&& 0xffff)) := by
  simp only [mulGY]
  rw [shiftRight48]
  have h1 : (Y <<< 16) &&& 0xffffffffffffffff = (Y % 2 ^ 48) * 2 ^ 16 := by
    have hm : (0xffffffffffffffff : Nat) = 2 ^ 64 - 1 := by norm_num
    rw [hm, Nat.and_pow_two_sub_one_eq_mod, shl16_mod]
  rw [h1, Nat.mul_comm (Y % 2 ^ 48) (2 ^ 16)]
  exact (Nat.mul_add_lt_is_or (mulGY_fold_lt Y hY) (Y % 2 ^ 48)).symm

theorem or_xor_low (A h m : Nat) (hA : A % 2 ^ 16 = 0) (hh : h < 2 ^ 16) (hm : m < 2 ^ 16) :
    (A ||| h) ^^^ m = A ||| (h ^^^ m) := by
  apply Nat.eq_of_testBit_eq
  intro i
  simp only [Nat.testBit_or, Nat.testBit_xor]
  by_cases hi : i < 16
  · have h0 := Nat.testBit_mod_two_pow A 16 i
    rw [hA] at h0
    simp only [Nat.zero_testBit, hi, decide_True, Bool.true_and] at h0
    simp [← h0]
  · have h16 : (2 : Nat) ^ 16 ≤ 2 ^ i := Nat.pow_le_pow_right (by norm_num) (by omega)
    have hm2 : m.testBit i = false := Nat.testBit_lt_two_pow (Nat.lt_of_lt_of_le hm h16)
    have hh2 : h.testBit i = false := Nat.testBit_lt_two_pow (Nat.lt_of_lt_of_le hh h16)
    simp [hm2, hh2]

/-- Claim C6: mulGY equals the 64-bit wrapped left shift by 16 with its low
16 bits (which the shift leaves at zero) overwritten by the 16-bit fold of
the top 16 bits with the low 16 bits of the argument; equivalently, it is the
left rotation by 16 with the low 16 bits of the argument xored into the
bottom 16 bits of the rotation. -/
theorem mulGY_formula (Y : Nat) (hY : Y < 2 ^ 64) :
    mulGY Y = ((Y <<< 16) % 2 ^ 64) + ((Y >>> 48) ^^^ (Y &&& 0xffff)) ∧
    ((Y <<< 16) % 2 ^ 64) % 2 ^ 16 = 0 ∧
    ((Y >>> 48) ^^^ (Y &&& 0xffff)) < 2 ^ 16 ∧
    mulGY Y = (((Y <<< 16) % 2 ^ 64) ||| (Y >>> 48)) ^^^ (Y &&& 0xffff) := by
  have hYhi : Y >>> 48 < 2 ^ 16 := by
    rw [Nat.shiftRight_eq_div_pow]
    rw [Nat.div_lt_iff_lt_mul (by positivity)]
    calc Y < 2 ^ 64 := hY
    _ = 2 ^ 16 * 2 ^ 48 := by norm_num
  have hml : Y &&& 0xffff < 2 ^ 16 := by
    rw [and_ffff]
    exact Nat.mod_lt _ (by positivity)
  have hA16 : ((Y <<< 16) % 2 ^ 64) % 2 ^ 16 = 0 := by
    rw [shl16_mod]
    exact Nat.mul_mod_left _ _
  refine ⟨?_, hA16, mulGY_fold_lt Y hY, ?_⟩
  · rw [shl16_mod]
    exact mulGY_eq Y hY
  · rw [or_xor_low _ _ _ hA16 hYhi hml, shl16_mod, mulGY_eq Y hY,
      Nat.mul_comm (Y % 2 ^ 48) (2 ^ 16)]
    exact Nat.mul_add_lt_is_or (mulGY_fold_lt Y hY) (Y % 2 ^ 48)

/-- Witness for mulGY_formula at Y = 1. -/
theorem mulGY_formula_witness :
    mulGY 1 = ((1 <<< 16) % 2 ^ 64) + ((1 >>> 48) ^^^ (1 &&& 0xffff)) ∧
    ((1 <<< 16) % 2 ^ 64) % 2 ^ 16 = 0 ∧
    (((1 : Nat) >>> 48) ^^^ (1 &&& 0xffff)) < 2 ^ 16 ∧
    mulGY 1 = ((((1 : Nat) <<< 16) % 2 ^ 64) ||| (1 >>> 48)) ^^^ (1 &&& 0xffff) :=
  mulGY_formula 1 (by norm_num)

/-- Claim C10: mulGY is injective on 64-bit blocks, hence the COFB feedback
map is a bijection of the 64-bit block space onto its image. -/
theorem mulGY_injective (Y Z : Nat) (hY : Y < 2 ^ 64) (hZ : Z < 2 ^ 64)
    (h : mulGY Y = mulGY Z) : Y = Z := by
  rw [mulGY_eq Y hY, mulGY_eq Z hZ] at h
  have hfY := mulGY_fold_lt Y hY
  have hfZ := mulGY_fold_lt Z hZ
  have hmod : Y % 2 ^ 48 = Z % 2 ^ 48 := by omega
  have hf : (Y >>> 48) ^^^ (Y &&& 0xffff) = (Z >>> 48) ^^^ (Z &&& 0xffff) := by omega
  have hlow : Y &&& 0xffff = Z &&& 0xffff := by
    rw [and_ffff, and_ffff]
    have e1 : Y % 2 ^ 16 = Y % 2 ^ 48 % 2 ^ 16 := (Nat.mod_mod_of_dvd Y (by norm_num)).symm
    have e2 : Z % 2 ^ 16 = Z % 2 ^ 48 % 2 ^ 16 := (Nat.mod_mod_of_dvd Z (by norm_num)).symm
    rw [e1, e2, hmod]
  have hhi : Y >>> 48 = Z >>> 48 := by
    have h2 : ((Y >>> 48) ^^^ (Y &&& 0xffff)) ^^^ (Y &&& 0xffff)
        = ((Z >>> 48) ^^^ (Z &&& 0xffff)) ^^^ (Z &&& 0xffff) := by rw [hf, hlow]
    rwa [Nat.xor_cancel_right, Nat.xor_cancel_right] at h2
  rw [Nat.shiftRight_eq_div_pow, Nat.shiftRight_eq_div_pow] at hhi
  omega

/-- Witness for mulGY_injective at Y = Z = 1. -/
theorem mulGY_injective_witness : (1 : Nat) = 1 :=
  mulGY_injective 1 1 (by norm_num) (by norm_num) rfl

/-! Midori against the spec wording. -/

theorem RKgen_eq_RKspec (K0 K1 i : Nat) : RKgen K0 K1 i = RKspec K0 K1 i := by
  have hnxn : nxn = 16 := rfl
  simp only [RKgen, RKspec, hnxn]
  apply asgLoop_congr
  intro j hj
  have h1 : i &&& 1 = i % 2 := Nat.and_one_is_mod i
  have h2 : 16 - j - 1 = 15 - j := by omega
  rw [h1, h2]

theorem midoriRounds_eq_spec (K0 K1 S k : Nat) :
    midoriRounds K0 K1 0 S k = midoriSpecRounds K0 K1 S k := by
  induction k with
  | zero => rfl
  | succ i ih =>
    show midoriRound K0 K1 0 (midoriRounds K0 K1 0 S i) i = _
    rw [ih]
    simp [midoriRound, midoriSpecRounds, RKgen_eq_RKspec]

/-- Claim C3: midori with inv = 0 equals the cipher the spec describes: xor
with WK = K0 xor K1, then 15 rounds of SubCell, forward ShuffleCell,
MixColumn and round-key xor, then a final SubCell and a final xor with WK;
and nibble j of round key i is the nibble of K0 (even i) or K1 (odd i) xored
in its low bit with bit (15 - j) of the round constant betaC i. -/
theorem midori_follows_spec (S K0 K1 i j : Nat) (hi : i < 15) (hj : j < 16) :
    midori S K0 K1 0 = midoriSpec S K0 K1 ∧
    obtNibble (RKgen K0 K1 i) j =
      obtNibble (if i % 2 = 0 then K0 else K1) j ^^^ ((betaC i >>> (15 - j)) &&& 1) := by
  constructor
  · simp only [midori, midoriSpec, WKgen]
    have hr : r - 1 = 15 := rfl
    rw [hr, midoriRounds_eq_spec]
  · have hf : ∀ m, m < 16 →
        obtNibble (if i % 2 = 0 then K0 else K1) m ^^^ ((betaC i >>> (15 - m)) &&& 1) < 16 := by
      intro m hm
      have h1 : obtNibble (if i % 2 = 0 then K0 else K1) m < 16 := obtNibble_lt _ _
      have h2 : (betaC i >>> (15 - m)) &&& 1 ≤ 1 := Nat.and_le_right
      have h16 : (16 : Nat) = 2 ^ 4 := by norm_num
      rw [h16] at h1 ⊢
      exact Nat.xor_lt_two_pow h1 (by omega)
    rw [RKgen_eq_RKspec]
    simp only [RKspec]
    rw [obtNibble_asgLoop _ 0 16 j (by norm_num) hj hf]

/-- Witness for midori_follows_spec at S = K0 = K1 = 0, i = 0, j = 0. -/
theorem midori_follows_spec_witness :
    midori 0 0 0 0 = midoriSpec 0 0 0 ∧
    obtNibble (RKgen 0 0 0) 0 =
      obtNibble (if 0 % 2 = 0 then (0 : Nat) else 0) 0 ^^^ ((betaC 0 >>> (15 - 0)) &&& 1) :=
  midori_follows_spec 0 0 0 0 0 (by norm_num) (by norm_num)

/-! COFB driver lemmas. -/

theorem goper_mx2_congr (finB alf : Nat) (s t : FieldState) (h : s.mx2 = t.mx2) :
    (goper finB alf s).1 = (goper finB alf t).1 ∧
    (goper finB alf s).2.mx2 = (goper finB alf t).2.mx2 := by
  simp only [goper]
  split_ifs <;> simp [h]

theorem cofbStep_congr (K0 K1 beta B : Nat) (brk : Bool) (s t : EncState)
    (he : s.exp = t.exp) (hy : s.Y = t.Y) (hm : s.fs.mx2 = t.fs.mx2) :
    (cofbStep K0 K1 beta s B brk).2 = (cofbStep K0 K1 beta t B brk).2 ∧
    (cofbStep K0 K1 beta s B brk).1.exp = (cofbStep K0 K1 beta t B brk).1.exp ∧
    (cofbStep K0 K1 beta s B brk).1.Y = (cofbStep K0 K1 beta t B brk).1.Y ∧
    (cofbStep K0 K1 beta s B brk).1.fs.mx2 = (cofbStep K0 K1 beta t B brk).1.fs.mx2 := by
  simp only [cofbStep, mask, he, hy]
  have hg := goper_mx2_congr (if brk then t.exp + 1 else t.exp) beta s.fs t.fs hm
  exact ⟨trivial, trivial, by rw [hg.1], hg.2⟩

theorem dcofbStep_congr (K0 K1 beta B : Nat) (brk : Bool) (s t : EncState)
    (he : s.exp = t.exp) (hy : s.Y = t.Y) (hm : s.fs.mx2 = t.fs.mx2) :
    (dcofbStep K0 K1 beta s B brk).2 = (dcofbStep K0 K1 beta t B brk).2 ∧
    (dcofbStep K0 K1 beta s B brk).1.exp = (dcofbStep K0 K1 beta t B brk).1.exp ∧
    (dcofbStep K0 K1 beta s B brk).1.Y = (dcofbStep K0 K1 beta t B brk).1.Y ∧
    (dcofbStep K0 K1 beta s B brk).1.fs.mx2 = (dcofbStep K0 K1 beta t B brk).1.fs.mx2 := by
  simp only [dcofbStep, mask, he, hy]
  have hg := goper_mx2_congr (if brk then t.exp + 1 else t.exp) beta s.fs t.fs hm
  exact ⟨trivial, trivial, by rw [hg.1], hg.2⟩

theorem cofbLoop_congr (K0 K1 beta : Nat) (inp : List (Nat × Bool)) :
    ∀ s t : EncState, s.exp = t.exp → s.Y = t.Y → s.fs.mx2 = t.fs.mx2 →
    (cofbLoop K0 K1 beta s inp).1 = (cofbLoop K0 K1 beta t inp).1 ∧
    (cofbLoop K0 K1 beta s inp).2.exp = (cofbLoop K0 K1 beta t inp).2.exp ∧
    (cofbLoop K0 K1 beta s inp).2.Y = (cofbLoop K0 K1 beta t inp).2.Y ∧
    (cofbLoop K0 K1 beta s inp).2.fs.mx2 = (cofbLoop K0 K1 beta t inp).2.fs.mx2 := by
  induction inp with
  | nil =>
    intro s t he hy hm
    exact ⟨rfl, he, hy, hm⟩
  | cons it rest ih =>
    intro s t he hy hm
    obtain ⟨B, brk⟩ := it
    by_cases hlt : s.exp < 4
    · have hlt2 : t.exp < 4 := he ▸ hlt
      simp only [cofbLoop, if_pos hlt, if_pos hlt2]
      have hst := cofbStep_congr K0 K1 beta B brk s t he hy hm
      have hr := ih (cofbStep K0 K1 beta s B brk).1 (cofbStep K0 K1 beta t B brk).1
        hst.2.1 hst.2.2.1 hst.2.2.2
      exact ⟨by rw [hst.1, hr.1], hr.2.1, hr.2.2.1, hr.2.2.2⟩
    · have hlt2 : ¬t.exp < 4 := he ▸ hlt
      simp only [cofbLoop, if_neg hlt, if_neg hlt2]
      exact ⟨trivial, he, hy, hm⟩

theorem dcofbLoop_congr (K0 K1 beta : Nat) (inp : List (Nat × Bool)) :
    ∀ s t : EncState, s.exp = t.exp → s.Y = t.Y → s.fs.mx2 = t.fs.mx2 →
    (dcofbLoop K0 K1 beta s inp).1 = (dcofbLoop K0 K1 beta t inp).1 ∧
    (dcofbLoop K0 K1 beta s inp).2.exp = (dcofbLoop K0 K1 beta t inp).2.exp ∧
    (dcofbLoop K0 K1 beta s inp).2.Y = (dcofbLoop K0 K1 beta t inp).2.Y ∧
    (dcofbLoop K0 K1 beta s inp).2.fs.mx2 = (dcofbLoop K0 K1 beta t inp).2.fs.mx2 := by
  induction inp with
  | nil =>
    intro s t he hy hm
    exact ⟨rfl, he, hy, hm⟩
  | cons it rest ih =>
    intro s t he hy hm
    obtain ⟨B, brk⟩ := it
    by_cases hlt : s.exp < 4
    · have hlt2 : t.exp < 4 := he ▸ hlt
      simp only [dcofbLoop, if_pos hlt, if_pos hlt2]
      have hst := dcofbStep_congr K0 K1 beta B brk s t he hy hm
      have hr := ih (dcofbStep K0 K1 beta s B brk).1 (dcofbStep K0 K1 beta t B brk).1
        hst.2.1 hst.2.2.1 hst.2.2.2
      exact ⟨by rw [hst.1, hr.1], hr.2.1, hr.2.2.1, hr.2.2.2⟩
    · have hlt2 : ¬t.exp < 4 := he ▸ hlt
      simp only [dcofbLoop, if_neg hlt, if_neg hlt2]
      exact ⟨trivial, he, hy, hm⟩

/-- Claim C4: per-message field-state reset.  The emitted blocks and the tag
of a COFB or dCOFB call do not depend on the values the module variables mx2,
mx2x3 and mx2x3x3 hold at call entry, because mx2 is overwritten with beta at
the start of every call and the other two are never read before being
written.  Consequently back-to-back calls behave like calls on a fresh
process. -/
theorem cofb_fieldstate_independent (K0 K1 N T : Nat) (inp : List (Nat × Bool))
    (st0 st1 : FieldState) :
    (COFB K0 K1 N inp st0).outs = (COFB K0 K1 N inp st1).outs ∧
    (COFB K0 K1 N inp st0).tag = (COFB K0 K1 N inp st1).tag ∧
    (dCOFB K0 K1 N T inp st0).outs = (dCOFB K0 K1 N T inp st1).outs ∧
    (dCOFB K0 K1 N T inp st0).tag = (dCOFB K0 K1 N T inp st1).tag := by
  simp only [COFB, dCOFB, cofbInit]
  have h1 := cofbLoop_congr K0 K1 (maskGen (midori N K0 K1 0)) inp
    ⟨1, midori N K0 K1 0, ⟨maskGen (midori N K0 K1 0), st0.mx2x3, st0.mx2x3x3⟩⟩
    ⟨1, midori N K0 K1 0, ⟨maskGen (midori N K0 K1 0), st1.mx2x3, st1.mx2x3x3⟩⟩ rfl rfl rfl
  have h2 := dcofbLoop_congr K0 K1 (maskGen (midori N K0 K1 0)) inp
    ⟨1, midori N K0 K1 0, ⟨maskGen (midori N K0 K1 0), st0.mx2x3, st0.mx2x3x3⟩⟩
    ⟨1, midori N K0 K1 0, ⟨maskGen (midori N K0 K1 0), st1.mx2x3, st1.mx2x3x3⟩⟩ rfl rfl rfl
  exact ⟨h1.1, h1.2.2.1, h2.1, h2.2.2.1⟩

/-- Claim C5: dCOFB never reads its expected-tag argument: with any two
expected tags it emits the same blocks and returns the same computed tag (the
whole result coincides), so it always runs to completion independently of a
mismatch. -/
theorem dcofb_ignores_expected_tag (K0 K1 N T1 T2 : Nat) (inp : List (Nat × Bool))
    (st0 : FieldState) : dCOFB K0 K1 N T1 inp st0 = dCOFB K0 K1 N T2 inp st0 := rfl

theorem cofbLoop_stop (K0 K1 beta : Nat) (st : EncState) (inp : List (Nat × Bool))
    (h : ¬st.exp < 4) : cofbLoop K0 K1 beta st inp = ([], st) := by
  cases inp with
  | nil => rfl
  | cons it rest =>
    obtain ⟨B, brk⟩ := it
    simp [cofbLoop, if_neg h]

theorem cofbLoop_exp_inv (K0 K1 beta : Nat) (inp : List (Nat × Bool)) :
    ∀ st : EncState, st.exp = 1 ∨ st.exp = 3 →
    (cofbLoop K0 K1 beta st inp).2.exp = 1 ∨ (cofbLoop K0 K1 beta st inp).2.exp = 3 ∨
    (cofbLoop K0 K1 beta st inp).2.exp = 5 := by
  induction inp with
  | nil =>
    intro st h
    simp only [cofbLoop]
    tauto
  | cons it rest ih =>
    intro st h
    obtain ⟨B, brk⟩ := it
    have hlt : st.exp < 4 := by omega
    simp only [cofbLoop, if_pos hlt]
    by_cases hb : brk = true
    · rcases h with h1 | h3
      · have hexp : (cofbStep K0 K1 beta st B brk).1.exp = 3 := by
          simp [cofbStep, switchAdv, hb, h1]
        exact ih _ (Or.inr hexp)
      · have hexp : (cofbStep K0 K1 beta st B brk).1.exp = 5 := by
          simp [cofbStep, switchAdv, hb, h3]
        rw [cofbLoop_stop K0 K1 beta _ rest (by omega)]
        exact Or.inr (Or.inr hexp)
    · have hbf : brk = false := by
        cases brk
        · rfl
        · exact absurd rfl hb
      have hexp : (cofbStep K0 K1 beta st B brk).1.exp = st.exp := by
        simp only [cofbStep, hbf, Bool.false_eq_true, if_false, switchAdv]
        rw [if_neg (by omega)]
      exact ih _ (by rw [hexp]; exact h)

/-- Counterexample to claim C2 as stated: the counter does not advance only
at input boundaries taking the values 1, 2, 3, 4.  Starting from the real
initial state of COFB with K0 = K1 = N = 0, a single iteration that observes
one input boundary moves exp from 1 to 3 (two advances: one at the boundary
check, one in the trailing switch), not to 2; and a run over two
boundary-terminated blocks exits the loop with exp = 5, not 4. -/
theorem cofb_exp_double_advance :
    (cofbStep 0 0 (cofbInit 0 0 0 ⟨0, 0, 0⟩).1 (cofbInit 0 0 0 ⟨0, 0, 0⟩).2 0 true).1.exp = 3 ∧
    (cofbStep 0 0 (cofbInit 0 0 0 ⟨0, 0, 0⟩).1 (cofbInit 0 0 0 ⟨0, 0, 0⟩).2 0 true).1.exp ≠ 2 ∧
    (cofbLoop 0 0 (cofbInit 0 0 0 ⟨0, 0, 0⟩).1 (cofbInit 0 0 0 ⟨0, 0, 0⟩).2
      [(0, true), (0, true)]).2.exp = 5 := by
  refine ⟨rfl, by decide, rfl⟩

/-- Claim C2, amended as the code forces: exp starts at 1; an iteration that
observes no boundary leaves exp unchanged; an iteration that observes a
boundary advances exp twice, once at the boundary check and once in the
trailing switch (which fires exactly on the even values 0, 2, 4), so exp
moves 1 to 3 to 5 across iterations; the loop guard is exp < 4, and the final
exp of a loop started at 1 or 3 is 1, 3 or 5. -/
theorem cofb_exp_policy (K0 K1 N beta B : Nat) (st0 : FieldState) (st : EncState) (brk : Bool)
    (inp : List (Nat × Bool)) (h : st.exp = 1 ∨ st.exp = 3) :
    (cofbInit K0 K1 N st0).2.exp = 1 ∧
    (cofbStep K0 K1 beta st B brk).1.exp = (if brk then st.exp + 2 else st.exp) ∧
    ((cofbLoop K0 K1 beta st inp).2.exp = 1 ∨ (cofbLoop K0 K1 beta st inp).2.exp = 3 ∨
      (cofbLoop K0 K1 beta st inp).2.exp = 5) := by
  refine ⟨rfl, ?_, cofbLoop_exp_inv K0 K1 beta inp st h⟩
  simp only [cofbStep, switchAdv]
  rcases h with h1 | h3
  · rw [h1]
    cases brk
    · simp
    · simp
  · rw [h3]
    cases brk
    · simp
    · simp

/-- Witness for cofb_exp_policy at concrete zero inputs with exp = 1. -/
theorem cofb_exp_policy_witness :
    (cofbInit 0 0 0 ⟨0, 0, 0⟩).2.exp = 1 ∧
    (cofbStep 0 0 0 ⟨1, 0, ⟨0, 0, 0⟩⟩ 0 false).1.exp = 1 ∧
    ((cofbLoop 0 0 0 ⟨1, 0, ⟨0, 0, 0⟩⟩ []).2.exp = 1 ∨
      (cofbLoop 0 0 0 ⟨1, 0, ⟨0, 0, 0⟩⟩ []).2.exp = 3 ∨
      (cofbLoop 0 0 0 ⟨1, 0, ⟨0, 0, 0⟩⟩ []).2.exp = 5) :=
  cofb_exp_policy 0 0 0 0 0 ⟨0, 0, 0⟩ ⟨1, 0, ⟨0, 0, 0⟩⟩ false [] (Or.inl rfl)

theorem dcofb_sim_step (K0 K1 beta B : Nat) (brk : Bool) (se sd : EncState)
    (he : sd.exp = se.exp) (hy : sd.Y = se.Y) (hm : sd.fs.mx2 = se.fs.mx2) :
    (dcofbStep K0 K1 beta sd
        (if (if brk then se.exp + 1 else se.exp) > 2 then se.Y ^^^ B else B) brk).1.exp
      = (cofbStep K0 K1 beta se B brk).1.exp ∧
    (dcofbStep K0 K1 beta sd
        (if (if brk then se.exp + 1 else se.exp) > 2 then se.Y ^^^ B else B) brk).1.Y
      = (cofbStep K0 K1 beta se B brk).1.Y ∧
    (dcofbStep K0 K1 beta sd
        (if (if brk then se.exp + 1 else se.exp) > 2 then se.Y ^^^ B else B) brk).1.fs.mx2
      = (cofbStep K0 K1 beta se B brk).1.fs.mx2 ∧
    (dcofbStep K0 K1 beta sd
        (if (if brk then se.exp + 1 else se.exp) > 2 then se.Y ^^^ B else B) brk).2
      = (if (if brk then se.exp + 1 else se.exp) > 2 then some B else none) := by
  have hg := goper_mx2_congr (if brk then se.exp + 1 else se.exp) beta sd.fs se.fs hm
  simp only [dcofbStep, cofbStep, mask, he, hy]
  by_cases h2 : (if brk then se.exp + 1 else se.exp) > 2
  · simp only [if_pos h2]
    have hx : se.Y ^^^ ((se.Y ^^^ B) ^^^ mulGY se.Y) = B ^^^ mulGY se.Y := by
      rw [Nat.xor_assoc, Nat.xor_cancel_left]
    have hb : se.Y ^^^ (se.Y ^^^ B) = B := Nat.xor_cancel_left _ _
    refine ⟨trivial, ?_, hg.2, ?_⟩
    · rw [hg.1, hx]
    · rw [hb]
  · simp only [if_neg h2]
    exact ⟨trivial, by rw [hg.1], hg.2, trivial⟩

theorem dcofb_sim (K0 K1 beta : Nat) (inp : List (Nat × Bool)) :
    ∀ se sd : EncState, sd.exp = se.exp → sd.Y = se.Y → sd.fs.mx2 = se.fs.mx2 →
    (dcofbLoop K0 K1 beta sd (encToDecItems K0 K1 beta se inp)).1 = payloadBlocks se.exp inp ∧
    (dcofbLoop K0 K1 beta sd (encToDecItems K0 K1 beta se inp)).2.Y
      = (cofbLoop K0 K1 beta se inp).2.Y := by
  induction inp with
  | nil =>
    intro se sd he hy hm
    exact ⟨rfl, hy⟩
  | cons it rest ih =>
    intro se sd he hy hm
    obtain ⟨B, brk⟩ := it
    by_cases hlt : se.exp < 4
    · have hlt2 : sd.exp < 4 := by rw [he]; exact hlt
      simp only [encToDecItems, if_pos hlt]
      simp only [dcofbLoop, if_pos hlt2]
      simp only [cofbLoop, if_pos hlt]
      simp only [payloadBlocks, if_pos hlt]
      have hst := dcofb_sim_step K0 K1 beta B brk se sd he hy hm
      have hr := ih (cofbStep K0 K1 beta se B brk).1
        (dcofbStep K0 K1 beta sd
          (if (if brk then se.exp + 1 else se.exp) > 2 then se.Y ^^^ B else B) brk).1
        hst.1 hst.2.1 hst.2.2.1
      constructor
      · rw [hst.2.2.2, hr.1]
        have hexp : (cofbStep K0 K1 beta se B brk).1.exp
            = switchAdv (if brk then se.exp + 1 else se.exp) := rfl
        rw [hexp]
        by_cases h2 : (if brk then se.exp + 1 else se.exp) > 2
        · simp [h2]
        · simp [h2]
      · rw [hr.2]
    · have hlt2 : ¬sd.exp < 4 := by rw [he]; exact hlt
      simp only [encToDecItems, if_neg hlt]
      simp only [dcofbLoop, if_neg hlt2]
      simp only [cofbLoop, if_neg hlt]
      simp only [payloadBlocks, if_neg hlt]
      exact ⟨trivial, hy⟩

theorem encToDec_payload (K0 K1 beta : Nat) (inp : List (Nat × Bool)) :
    ∀ se : EncState, payloadBlocks se.exp (encToDecItems K0 K1 beta se inp)
      = (cofbLoop K0 K1 beta se inp).1 := by
  induction inp with
  | nil =>
    intro se
    rfl
  | cons it rest ih =>
    intro se
    obtain ⟨B, brk⟩ := it
    by_cases hlt : se.exp < 4
    · simp only [encToDecItems, if_pos hlt]
      simp only [payloadBlocks, if_pos hlt]
      simp only [cofbLoop, if_pos hlt]
      have hexp : switchAdv (if brk then se.exp + 1 else se.exp)
          = (cofbStep K0 K1 beta se B brk).1.exp := rfl
      rw [hexp, ih]
      by_cases h2 : (if brk then se.exp + 1 else se.exp) > 2
      · simp [h2, cofbStep]
      · simp [h2, cofbStep]
    · simp only [encToDecItems, if_neg hlt]
      simp only [payloadBlocks, if_neg hlt]
      simp only [cofbLoop, if_neg hlt]

/-- Claim C1: encrypt-then-decrypt round-trip.  For every key, nonce, entry
module states and tokenized input stream: running dCOFB, under the same key
and nonce, on the stream that carries the ciphertext blocks COFB produced (the
enciphered positions hold the emitted blocks, the earlier positions pass
through unchanged) emits exactly the plaintext blocks the encrypt run
enciphered, and computes the same tag COFB produced.  The third conjunct
states that the decrypt stream indeed carries the produced ciphertext blocks
at the enciphered positions. -/
theorem cofb_roundtrip (K0 K1 N T : Nat) (st0 st1 : FieldState) (inp : List (Nat × Bool)) :
    (dCOFB K0 K1 N T (encToDecInput K0 K1 N st0 inp) st1).outs = payloadBlocks 1 inp ∧
    (dCOFB K0 K1 N T (encToDecInput K0 K1 N st0 inp) st1).tag = (COFB K0 K1 N inp st0).tag ∧
    payloadBlocks 1 (encToDecInput K0 K1 N st0 inp) = (COFB K0 K1 N inp st0).outs := by
  simp only [dCOFB, COFB, encToDecInput, cofbInit]
  have hsim := dcofb_sim K0 K1 (maskGen (midori N K0 K1 0)) inp
    ⟨1, midori N K0 K1 0, ⟨maskGen (midori N K0 K1 0), st0.mx2x3, st0.mx2x3x3⟩⟩
    ⟨1, midori N K0 K1 0, ⟨maskGen (midori N K0 K1 0), st1.mx2x3, st1.mx2x3x3⟩⟩ rfl rfl rfl
  have hpay := encToDec_payload K0 K1 (maskGen (midori N K0 K1 0)) inp
    ⟨1, midori N K0 K1 0, ⟨maskGen (midori N K0 K1 0), st0.mx2x3, st0.mx2x3x3⟩⟩
  exact ⟨hsim.1, hsim.2, hpay⟩

end COFBMidori
